import Mathlib

/-!
# Verification of `AdaptiveTradingFunction.py`

A shallow embedding of the adaptive trading function (a generalized
constant-function market maker) and proofs of the specified properties.

Modelling conventions:

* `Decimal` values are idealized as exact real numbers (`ℝ`); the spec's
  "within decimal tolerance" statements are settled with exact equality,
  which implies them.
* Python's `Decimal.__pow__` is partial: for an integral exponent it is the
  ordinary (signed-base) power; for a non-integral exponent it requires a
  positive base (a nonnegative base when the exponent is positive); every
  other combination raises `InvalidOperation`.  `dpow` returns `none`
  exactly where the Python operation raises.
* `np.isclose(float(q), 0)` with numpy's default tolerances
  (`atol = 1e-8`, `rtol = 1e-5`) holds iff `|q| ≤ 1e-8`.
* A raised exception aborts an operation before any mutation that follows
  it in the method body; operations therefore return `Option`, `none`
  standing for a propagated exception.
-/

noncomputable section

/-- The zero test `np.isclose(float(q), 0)`: with numpy's default
tolerances this is `|q| ≤ 1e-8`. -/
def qtol : ℝ := 1 / 10 ^ 8

/-- Python `Decimal` power `x ** e`, idealized over `ℝ`.  `none` where
`Decimal` raises: zero base with nonpositive exponent, or negative base
with non-integral exponent. -/
def dpow (x e : ℝ) : Option ℝ :=
  if (⌊e⌋ : ℝ) = e then
    if x = 0 ∧ e ≤ 0 then none else some (x ^ ⌊e⌋)
  else
    if 0 < x then some (x ^ e)
    else if x = 0 ∧ 0 < e then some 0
    else none

/-- Source function `calculate_k(q, x, y)`: `x*y` when `q` is within the
zero tolerance, else `(x**q + y**q)**(1/q)`, with exceptions propagating
(`none`). -/
def calculate_k (q x y : ℝ) : Option ℝ :=
  if |q| ≤ qtol then some (x * y)
  else
    match dpow x q, dpow y q with
    | some xq, some yq => dpow (xq + yq) (1 / q)
    | _, _ => none

/-- The per-element body of the loop in `calculate_y_vec` (the scalar
solve the spec calls `solveOtherReserve`): `k / x` in the `q ≈ 0` branch,
the not-a-number marker (`none`) when `x**q > k**q`, else
`(k**q - x**q)**(1/q)`; the surrounding `try/except` turns every raised
exception into the marker as well. -/
def solveOtherReserve (x q k : ℝ) : Option ℝ :=
  if |q| ≤ qtol then
    if x = 0 then none else some (k / x)
  else
    match dpow x q, dpow k q with
    | some xq, some kq => if xq > kq then none else dpow (kq - xq) (1 / q)
    | _, _ => none

/-- Source function `calculate_y_vec(xvec, q, k)`: the loop `yvec = []; for x in xvec:
yvec.append(...)`, one element per input, `none` marking a `np.nan`
element. -/
def calculate_y_vec (xvec : List ℝ) (q k : ℝ) : List (Option ℝ) :=
  xvec.foldl (fun yvec x => yvec ++ [solveOtherReserve x q k]) []

/-- The state of `class Exchange`: curvature `q`, reserves `x`, `y`,
invariant `k`, and `reserveHistory`. -/
structure Exchange where
  q : ℝ
  x : ℝ
  y : ℝ
  k : ℝ
  reserveHistory : List (ℝ × ℝ)

/-- Constructor `Exchange.__init__(x, y, q)`: stores the inputs, computes `k` by the
inlined invariant formula and seeds the history with `(x, y)`.  `none`
when the `k` computation raises. -/
def Exchange.init (x y q : ℝ) : Option Exchange :=
  match (if |q| ≤ qtol then some (x * y)
         else match dpow x q, dpow y q with
              | some xq, some yq => dpow (xq + yq) (1 / q)
              | _, _ => none) with
  | some k => some ⟨q, x, y, k, [(x, y)]⟩
  | none => none

/-- Method `Exchange.updateQ(newq)`: sets `q` and recomputes `k` by the inlined
invariant formula from the current reserves; reserves and history are not
touched. -/
def Exchange.updateQ (ex : Exchange) (newq : ℝ) : Option Exchange :=
  match (if |newq| ≤ qtol then some (ex.x * ex.y)
         else match dpow ex.x newq, dpow ex.y newq with
              | some xq, some yq => dpow (xq + yq) (1 / newq)
              | _, _ => none) with
  | some k => some { ex with q := newq, k := k }
  | none => none

/-- The new-partner-reserve expression inlined in both trade methods:
`k / newv` in the `q ≈ 0` branch, else `(k**q - newv**q)**(1/q)`.  Note:
unlike `calculate_y_vec`, the trade methods perform no `x**q > k**q`
feasibility test. -/
def tradeSolve (q k newv : ℝ) : Option ℝ :=
  if |q| ≤ qtol then
    if newv = 0 then none else some (k / newv)
  else
    match dpow k q, dpow newv q with
    | some kq, some nq => dpow (kq - nq) (1 / q)
    | _, _ => none

/-- Method `Exchange.tradeXforY(dx)`: `newx = x + dx`, solve for `newy` on the
existing curve (no feasibility check), mutate the reserves, append the
post-trade pair to the history and return `dy = y - newy`.  `none` when
the solve raises (state unchanged). -/
def Exchange.tradeXforY (ex : Exchange) (dx : ℝ) : Option (Exchange × ℝ) :=
  match tradeSolve ex.q ex.k (ex.x + dx) with
  | some newy =>
      some ({ ex with
                x := ex.x + dx
                y := newy
                reserveHistory := ex.reserveHistory ++ [(ex.x + dx, newy)] },
            ex.y - newy)
  | none => none

/-- Method `Exchange.tradeYforX(dy)`: the symmetric counterpart. -/
def Exchange.tradeYforX (ex : Exchange) (dy : ℝ) : Option (Exchange × ℝ) :=
  match tradeSolve ex.q ex.k (ex.y + dy) with
  | some newx =>
      some ({ ex with
                x := newx
                y := ex.y + dy
                reserveHistory := ex.reserveHistory ++ [(newx, ex.y + dy)] },
            ex.x - newx)
  | none => none

/-- One public mutating operation on a pool. -/
inductive Op where
  | tradeX : ℝ → Op
  | tradeY : ℝ → Op
  | updQ : ℝ → Op

/-- Run one operation, discarding a trade's returned delta. -/
def Exchange.step (ex : Exchange) : Op → Option Exchange
  | Op.tradeX dx => Option.map Prod.fst (ex.tradeXforY dx)
  | Op.tradeY dy => Option.map Prod.fst (ex.tradeYforX dy)
  | Op.updQ newq => ex.updateQ newq

/-- Run a sequence of operations; `none` as soon as one raises. -/
def Exchange.runOps : Exchange → List Op → Option Exchange
  | ex, [] => some ex
  | ex, op :: ops =>
    match ex.step op with
    | some ex' => ex'.runOps ops
    | none => none

/-- The number of trade operations in a sequence. -/
def countTrades : List Op → Nat
  | [] => 0
  | Op.tradeX _ :: ops => countTrades ops + 1
  | Op.tradeY _ :: ops => countTrades ops + 1
  | Op.updQ _ :: ops => countTrades ops

/-- The pool's invariant equation relating `k` to `(q, x, y)`:
`k = x*y` in the `q ≈ 0` branch, else `k**q = x**q + y**q`. -/
def Consistent (ex : Exchange) : Prop :=
  if |ex.q| ≤ qtol then ex.k = ex.x * ex.y
  else ex.k ^ ex.q = ex.x ^ ex.q + ex.y ^ ex.q

/-! ## Basic lemmas about the numeric model -/

theorem q_ne_zero_of_far (q : ℝ) (h : ¬ |q| ≤ qtol) : q ≠ 0 := by
  intro h0
  exact h (by rw [h0, abs_zero, qtol]; norm_num)

theorem dpow_of_pos (x e : ℝ) (hx : 0 < x) : dpow x e = some (x ^ e) := by
  unfold dpow
  by_cases hi : (⌊e⌋ : ℝ) = e
  · rw [if_pos hi, if_neg (by rintro ⟨h0, -⟩; exact hx.ne' h0)]
    congr 1
    rw [← Real.rpow_intCast x ⌊e⌋, hi]
  · rw [if_neg hi, if_pos hx]

theorem dpow_zero_base_of_pos (e : ℝ) (he : 0 < e) : dpow 0 e = some 0 := by
  unfold dpow
  by_cases hi : (⌊e⌋ : ℝ) = e
  · rw [if_pos hi, if_neg (by rintro ⟨-, h0⟩; exact absurd he (not_lt.mpr h0))]
    have hcast : (0 : ℝ) < (⌊e⌋ : ℝ) := by rw [hi]; exact he
    have hfl : 0 < ⌊e⌋ := by exact_mod_cast hcast
    rw [zero_zpow ⌊e⌋ (by omega)]
  · rw [if_neg hi, if_neg (lt_irrefl 0), if_pos ⟨rfl, he⟩]

theorem dpow_zero_base_inv (e v : ℝ) (h : dpow 0 e = some v) : v = 0 ∧ 0 < e := by
  unfold dpow at h
  by_cases hi : (⌊e⌋ : ℝ) = e
  · rw [if_pos hi] at h
    by_cases h0 : e ≤ 0
    · rw [if_pos ⟨rfl, h0⟩] at h
      exact absurd h (by simp)
    · push_neg at h0
      rw [if_neg (by rintro ⟨-, hle⟩; exact absurd h0 (not_lt.mpr hle))] at h
      have hfl : ⌊e⌋ ≠ 0 := by
        intro hz
        rw [hz, Int.cast_zero] at hi
        exact h0.ne' hi.symm
      rw [zero_zpow ⌊e⌋ hfl] at h
      exact ⟨by injection h with h; exact h.symm, h0⟩
  · rw [if_neg hi, if_neg (lt_irrefl 0)] at h
    by_cases hp : 0 < e
    · rw [if_pos ⟨rfl, hp⟩] at h
      exact ⟨by injection h with h; exact h.symm, hp⟩
    · rw [if_neg (by rintro ⟨-, hq⟩; exact hp hq)] at h
      exact absurd h (by simp)

theorem rpow_then_inv (x q : ℝ) (hx : 0 < x) (hq : q ≠ 0) :
    (x ^ q) ^ (1 / q) = x := by
  rw [← Real.rpow_mul hx.le, mul_one_div_cancel hq, Real.rpow_one]

theorem rpow_inv_then (x q : ℝ) (hx : 0 < x) (hq : q ≠ 0) :
    (x ^ (1 / q)) ^ q = x := by
  rw [← Real.rpow_mul hx.le, one_div_mul_cancel hq, Real.rpow_one]

/-! ## The claims -/

/-- C10: the invariant computation is symmetric in the two reserves:
`calculate_k q x y = calculate_k q y x` (proved for all inputs, in
particular for positive ones). -/
theorem C10_calculate_k_symmetric (q x y : ℝ) :
    calculate_k q x y = calculate_k q y x := by
  unfold calculate_k
  by_cases hq : |q| ≤ qtol
  · rw [if_pos hq, if_pos hq, mul_comm]
  · rw [if_neg hq, if_neg hq]
    cases hx : dpow x q <;> cases hy : dpow y q <;> simp [add_comm]

/-- C9: the invariant computation inlined in `Exchange.__init__` and in
`Exchange.updateQ` is extensionally equal to the standalone
`calculate_k`: the stored `k` (and the failure behavior) agree exactly. -/
theorem C9_inlined_invariant_refines_calculate_k :
    (∀ x y q : ℝ, Option.map Exchange.k (Exchange.init x y q) = calculate_k q x y) ∧
    (∀ (ex : Exchange) (newq : ℝ),
      Option.map Exchange.k (ex.updateQ newq) = calculate_k newq ex.x ex.y) := by
  constructor
  · intro x y q
    unfold Exchange.init calculate_k
    by_cases hq : |q| ≤ qtol
    · rw [if_pos hq]; rfl
    · rw [if_neg hq]
      cases hx : dpow x q with
      | none => rfl
      | some xq =>
        cases hy : dpow y q with
        | none => rfl
        | some yq =>
          dsimp only
          cases hk : dpow (xq + yq) (1 / q) <;> rfl
  · intro ex newq
    unfold Exchange.updateQ calculate_k
    by_cases hq : |newq| ≤ qtol
    · rw [if_pos hq]; rfl
    · rw [if_neg hq]
      cases hx : dpow ex.x newq with
      | none => rfl
      | some xq =>
        cases hy : dpow ex.y newq with
        | none => rfl
        | some yq =>
          dsimp only
          cases hk : dpow (xq + yq) (1 / newq) <;> rfl

/-- C2: for positive reserves, `calculate_k` returns `x * y` when `q` is
within the zero tolerance and `(x^q + y^q)^(1/q)` otherwise, and in the
latter case the returned `k` satisfies `k^q = x^q + y^q` exactly. -/
theorem C2_computeInvariant_cases (q x y : ℝ) (hx : 0 < x) (hy : 0 < y) :
    (|q| ≤ qtol → calculate_k q x y = some (x * y)) ∧
    (¬ |q| ≤ qtol →
      calculate_k q x y = some ((x ^ q + y ^ q) ^ (1 / q)) ∧
      ((x ^ q + y ^ q) ^ (1 / q)) ^ q = x ^ q + y ^ q) := by
  constructor
  · intro hq; unfold calculate_k; rw [if_pos hq]
  · intro hq
    have hq0 : q ≠ 0 := q_ne_zero_of_far q hq
    have hs : 0 < x ^ q + y ^ q :=
      add_pos (Real.rpow_pos_of_pos hx q) (Real.rpow_pos_of_pos hy q)
    refine ⟨?_, rpow_inv_then _ q hs hq0⟩
    unfold calculate_k
    rw [if_neg hq]
    simp only [dpow_of_pos x q hx, dpow_of_pos y q hy]
    exact dpow_of_pos _ _ hs

/-- Witness for C2 at `q = 2`, `x = 3`, `y = 4`. -/
theorem C2_computeInvariant_cases_witness :
    (|(2:ℝ)| ≤ qtol → calculate_k 2 3 4 = some (3 * 4)) ∧
    (¬ |(2:ℝ)| ≤ qtol →
      calculate_k 2 3 4 = some (((3:ℝ) ^ (2:ℝ) + (4:ℝ) ^ (2:ℝ)) ^ ((1:ℝ) / 2)) ∧
      (((3:ℝ) ^ (2:ℝ) + (4:ℝ) ^ (2:ℝ)) ^ ((1:ℝ) / 2)) ^ (2:ℝ) =
        (3:ℝ) ^ (2:ℝ) + (4:ℝ) ^ (2:ℝ)) :=
  C2_computeInvariant_cases 2 3 4 (by norm_num) (by norm_num)

/-- C4: `updateQ` on a pool with positive reserves succeeds, leaves the
reserves and the history exactly unchanged, and updates only `q` and `k`,
the new `k` being `calculate_k newq x y` computed from the unchanged
current reserves. -/
theorem C4_updateQ_frame (ex : Exchange) (newq : ℝ)
    (hx : 0 < ex.x) (hy : 0 < ex.y) :
    ∃ ex', ex.updateQ newq = some ex' ∧
      ex'.x = ex.x ∧ ex'.y = ex.y ∧
      ex'.reserveHistory = ex.reserveHistory ∧
      ex'.q = newq ∧ calculate_k newq ex.x ex.y = some ex'.k := by
  unfold Exchange.updateQ
  by_cases hq : |newq| ≤ qtol
  · rw [if_pos hq]
    exact ⟨_, rfl, rfl, rfl, rfl, rfl, by unfold calculate_k; rw [if_pos hq]⟩
  · rw [if_neg hq]
    have hs : 0 < ex.x ^ newq + ex.y ^ newq :=
      add_pos (Real.rpow_pos_of_pos hx newq) (Real.rpow_pos_of_pos hy newq)
    simp only [dpow_of_pos _ _ hx, dpow_of_pos _ _ hy, dpow_of_pos _ _ hs]
    refine ⟨_, rfl, rfl, rfl, rfl, rfl, ?_⟩
    unfold calculate_k
    rw [if_neg hq]
    simp only [dpow_of_pos _ _ hx, dpow_of_pos _ _ hy]
    exact dpow_of_pos _ _ hs

/-- Witness for C4 on the pool `q = 0, x = 2, y = 3, k = 6` with
`newq = 1`. -/
theorem C4_updateQ_frame_witness :
    ∃ ex', Exchange.updateQ ⟨0, 2, 3, 6, [(2, 3)]⟩ 1 = some ex' ∧
      ex'.x = 2 ∧ ex'.y = 3 ∧
      ex'.reserveHistory = [((2:ℝ), (3:ℝ))] ∧
      ex'.q = 1 ∧ calculate_k 1 2 3 = some ex'.k :=
  C4_updateQ_frame ⟨0, 2, 3, 6, [(2, 3)]⟩ 1 (by norm_num) (by norm_num)

theorem dpow_exp_one (x : ℝ) : dpow x 1 = some x := by
  unfold dpow
  rw [if_pos (by rw [Int.floor_one, Int.cast_one]),
      if_neg (by rintro ⟨-, h⟩; norm_num at h), Int.floor_one, zpow_one]

theorem abs_one_not_le_qtol : ¬ |(1:ℝ)| ≤ qtol := by
  rw [abs_one, qtol]; norm_num

/-- C8: the pool constructed with `x = 100`, `y = 100`, `q = 0` has
`k = 10000`, and `tradeXforY 100` on it yields `newX = 200`,
`newY = 50` and returns `dy = 50` exactly. -/
theorem C8_concrete_scenario :
    Exchange.init 100 100 0 = some ⟨0, 100, 100, 10000, [(100, 100)]⟩ ∧
    Exchange.tradeXforY ⟨0, 100, 100, 10000, [(100, 100)]⟩ 100 =
      some (⟨0, 200, 50, 10000, [(100, 100), (200, 50)]⟩, 50) := by
  have h0 : |(0:ℝ)| ≤ qtol := by rw [abs_zero, qtol]; norm_num
  constructor
  · unfold Exchange.init
    rw [if_pos h0]
    norm_num
  · unfold Exchange.tradeXforY tradeSolve
    dsimp only
    rw [if_pos h0, if_neg (by norm_num : ¬(100:ℝ) + 100 = 0)]
    norm_num

/-- C1, evaluated at the spec's own failing shape (`q = 1`, `newX > k`):
on the pool `q = 1, x = 50, y = 50, k = 100`, the trade `tradeXforY 60`
requests `newX = 110 > k = 100`, outside the feasible region, yet the
code signals nothing: it succeeds, mutates the reserves to
`x = 110, y = -10`, appends to the history and returns `dy = 60`. -/
theorem C1_infeasible_trade_mutates :
    (110:ℝ) > 100 ∧
    Exchange.tradeXforY ⟨1, 50, 50, 100, [(50, 50)]⟩ 60 =
      some (⟨1, 110, -10, 100, [(50, 50), (110, -10)]⟩, 60) := by
  refine ⟨by norm_num, ?_⟩
  unfold Exchange.tradeXforY tradeSolve
  dsimp only
  rw [if_neg abs_one_not_le_qtol]
  norm_num [dpow_exp_one]

theorem init_history (x y q : ℝ) (ex : Exchange)
    (h : Exchange.init x y q = some ex) : ex.reserveHistory = [(x, y)] := by
  unfold Exchange.init at h
  cases hk : (if |q| ≤ qtol then some (x * y)
              else match dpow x q, dpow y q with
                   | some xq, some yq => dpow (xq + yq) (1 / q)
                   | _, _ => none) with
  | none => rw [hk] at h; exact absurd h (by simp)
  | some k =>
    rw [hk] at h
    simp only [Option.some.injEq] at h
    subst h
    rfl

theorem step_history (ex ex' : Exchange) (op : Op) (h : ex.step op = some ex') :
    ∃ t, ex'.reserveHistory = ex.reserveHistory ++ t ∧
      t.length = countTrades [op] := by
  cases op with
  | tradeX dx =>
    unfold Exchange.step Exchange.tradeXforY at h
    dsimp only at h
    cases hs : tradeSolve ex.q ex.k (ex.x + dx) with
    | none => rw [hs] at h; exact absurd h (by simp)
    | some newy =>
      rw [hs] at h
      simp only [Option.map_some', Option.some.injEq] at h
      subst h
      exact ⟨[(ex.x + dx, newy)], rfl, rfl⟩
  | tradeY dy =>
    unfold Exchange.step Exchange.tradeYforX at h
    dsimp only at h
    cases hs : tradeSolve ex.q ex.k (ex.y + dy) with
    | none => rw [hs] at h; exact absurd h (by simp)
    | some newx =>
      rw [hs] at h
      simp only [Option.map_some', Option.some.injEq] at h
      subst h
      exact ⟨[(newx, ex.y + dy)], rfl, rfl⟩
  | updQ newq =>
    unfold Exchange.step Exchange.updateQ at h
    dsimp only at h
    cases hk : (if |newq| ≤ qtol then some (ex.x * ex.y)
                else match dpow ex.x newq, dpow ex.y newq with
                     | some xq, some yq => dpow (xq + yq) (1 / newq)
                     | _, _ => none) with
    | none => rw [hk] at h; exact absurd h (by simp)
    | some k =>
      rw [hk] at h
      simp only [Option.some.injEq] at h
      subst h
      exact ⟨[], (List.append_nil _).symm, rfl⟩

theorem runOps_history (ops : List Op) :
    ∀ ex ex' : Exchange, ex.runOps ops = some ex' →
      ∃ t, ex'.reserveHistory = ex.reserveHistory ++ t ∧
        t.length = countTrades ops := by
  induction ops with
  | nil =>
    intro ex ex' h
    unfold Exchange.runOps at h
    simp only [Option.some.injEq] at h
    subst h
    exact ⟨[], (List.append_nil _).symm, rfl⟩
  | cons op ops ih =>
    intro ex ex' h
    unfold Exchange.runOps at h
    cases hs : ex.step op with
    | none => rw [hs] at h; exact absurd h (by simp)
    | some exm =>
      rw [hs] at h
      obtain ⟨t1, ht1, hl1⟩ := step_history ex exm op hs
      obtain ⟨t2, ht2, hl2⟩ := ih exm ex' h
      refine ⟨t1 ++ t2, ?_, ?_⟩
      · rw [ht2, ht1, List.append_assoc]
      · rw [List.length_append, hl1, hl2]
        cases op <;> simp only [countTrades] <;> omega

/-- C5: on a freshly constructed pool, after any successful run of trades
interleaved with `updateQ` calls the reserve history has length
`N + 1` where `N` is the number of trades: construction seeds exactly one
entry, each trade appends exactly one, and the history is append-only
(the run only ever extends it). -/
theorem C5_history_growth (x y q : ℝ) (ops : List Op) (ex0 exN : Exchange)
    (h0 : Exchange.init x y q = some ex0)
    (hrun : ex0.runOps ops = some exN) :
    exN.reserveHistory.length = countTrades ops + 1 ∧
    ∃ t, exN.reserveHistory = ex0.reserveHistory ++ t := by
  obtain ⟨t, ht, hl⟩ := runOps_history ops ex0 exN hrun
  refine ⟨?_, t, ht⟩
  rw [ht, init_history x y q ex0 h0, List.length_append, hl]
  simp [Nat.add_comm]

/-- Witness for C5: one successful trade on the freshly constructed pool
`x = y = 100`, `q = 0`. -/
theorem C5_history_growth_witness :
    ([((100:ℝ), (100:ℝ)), (200, 50)] : List (ℝ × ℝ)).length =
      countTrades [Op.tradeX 100] + 1 ∧
    ∃ t, [((100:ℝ), (100:ℝ)), (200, 50)] = [((100:ℝ), (100:ℝ))] ++ t :=
  C5_history_growth 100 100 0 [Op.tradeX 100]
    ⟨0, 100, 100, 10000, [(100, 100)]⟩
    ⟨0, 200, 50, 10000, [(100, 100), (200, 50)]⟩
    (by
      have h0 : |(0:ℝ)| ≤ qtol := by rw [abs_zero, qtol]; norm_num
      unfold Exchange.init
      rw [if_pos h0]
      norm_num)
    (by
      have h0 : |(0:ℝ)| ≤ qtol := by rw [abs_zero, qtol]; norm_num
      unfold Exchange.runOps Exchange.step Exchange.tradeXforY tradeSolve
      dsimp only
      rw [if_pos h0, if_neg (by norm_num : ¬(100:ℝ) + 100 = 0)]
      norm_num
      rfl)

/-- C3: on a consistent pool with positive reserves and invariant, a trade
never recomputes `k` (the post-trade `k` equals the pre-trade `k`), and
after a successful `tradeXforY dx` returning `dy`, immediately executing
`tradeYforX dy` succeeds and restores the pre-trade reserves `(x, y)`
exactly, again leaving `k` unchanged. -/
theorem C3_trade_reversibility (ex ex' : Exchange) (dx dy : ℝ)
    (hx : 0 < ex.x) (hy : 0 < ex.y) (hk : 0 < ex.k)
    (hc : Consistent ex)
    (h1 : ex.tradeXforY dx = some (ex', dy)) :
    ex'.k = ex.k ∧
    ∃ ex'' dx', ex'.tradeYforX dy = some (ex'', dx') ∧
      ex''.x = ex.x ∧ ex''.y = ex.y ∧ ex''.k = ex.k := by
  unfold Exchange.tradeXforY at h1
  cases hs : tradeSolve ex.q ex.k (ex.x + dx) with
  | none => rw [hs] at h1; exact absurd h1 (by simp)
  | some newy =>
    rw [hs] at h1
    simp only [Option.some.injEq, Prod.mk.injEq] at h1
    obtain ⟨hex, hdy⟩ := h1
    subst hex
    subst hdy
    refine ⟨rfl, ?_⟩
    unfold Exchange.tradeYforX
    dsimp only
    have harg : newy + (ex.y - newy) = ex.y := by ring
    rw [harg]
    have hsolve : tradeSolve ex.q ex.k ex.y = some ex.x := by
      unfold tradeSolve
      by_cases hq : |ex.q| ≤ qtol
      · rw [if_pos hq, if_neg hy.ne']
        unfold Consistent at hc
        rw [if_pos hq] at hc
        rw [hc, mul_div_assoc, div_self hy.ne', mul_one]
      · rw [if_neg hq]
        have hq0 : ex.q ≠ 0 := q_ne_zero_of_far ex.q hq
        unfold Consistent at hc
        rw [if_neg hq] at hc
        rw [dpow_of_pos _ _ hk, dpow_of_pos _ _ hy]
        dsimp only
        have hbase : ex.k ^ ex.q - ex.y ^ ex.q = ex.x ^ ex.q := by
          rw [hc]; ring
        rw [hbase, dpow_of_pos _ _ (Real.rpow_pos_of_pos hx ex.q),
            rpow_then_inv ex.x ex.q hx hq0]
    rw [hsolve]
    exact ⟨_, _, rfl, rfl, rfl, rfl⟩

/-- Witness for C3: the `q = 0` pool `x = y = 100`, `k = 10000` after the
successful trade `tradeXforY 100` (returning `dy = 50`). -/
theorem C3_trade_reversibility_witness :
    (10000:ℝ) = 10000 ∧
    ∃ ex'' dx',
      Exchange.tradeYforX ⟨0, 200, 50, 10000, [(100, 100), (200, 50)]⟩ 50 =
        some (ex'', dx') ∧
      ex''.x = 100 ∧ ex''.y = 100 ∧ ex''.k = 10000 :=
  C3_trade_reversibility
    ⟨0, 100, 100, 10000, [(100, 100)]⟩
    ⟨0, 200, 50, 10000, [(100, 100), (200, 50)]⟩ 100 50
    (by norm_num) (by norm_num) (by norm_num)
    (by
      have h0 : |(0:ℝ)| ≤ qtol := by rw [abs_zero, qtol]; norm_num
      unfold Consistent
      dsimp only
      rw [if_pos h0]
      norm_num)
    (by
      have h0 : |(0:ℝ)| ≤ qtol := by rw [abs_zero, qtol]; norm_num
      unfold Exchange.tradeXforY tradeSolve
      dsimp only
      rw [if_pos h0, if_neg (by norm_num : ¬(100:ℝ) + 100 = 0)]
      norm_num)

theorem foldl_append_eq_map (f : ℝ → Option ℝ) :
    ∀ (l : List ℝ) (acc : List (Option ℝ)),
      l.foldl (fun ys x => ys ++ [f x]) acc = acc ++ l.map f := by
  intro l
  induction l with
  | nil => intro acc; simp
  | cons a t ih => intro acc; simp [ih]

/-- C6: the vectorized curve function returns a sequence of exactly the
input's length, in the input's order, each element being exactly the
scalar solve of its own input element (so an infeasible element never
aborts the rest); and the scalar solve is `k / x` when `q` is within the
zero tolerance (on a nonzero input — on a zero input the division itself
raises into the marker), the not-a-number marker when `x^q > k^q`, and
`(k^q - x^q)^(1/q)` otherwise. -/
theorem C6_vectorized_curve (xvec : List ℝ) (q k : ℝ) :
    (calculate_y_vec xvec q k).length = xvec.length ∧
    calculate_y_vec xvec q k = xvec.map (fun x => solveOtherReserve x q k) ∧
    (∀ x : ℝ, |q| ≤ qtol → x ≠ 0 → solveOtherReserve x q k = some (k / x)) ∧
    (∀ x xq kq : ℝ, ¬ |q| ≤ qtol → dpow x q = some xq → dpow k q = some kq →
      (xq > kq → solveOtherReserve x q k = none) ∧
      (¬ xq > kq → solveOtherReserve x q k = dpow (kq - xq) (1 / q))) := by
  have hmap : calculate_y_vec xvec q k =
      xvec.map (fun x => solveOtherReserve x q k) := by
    unfold calculate_y_vec
    simpa using foldl_append_eq_map (fun x => solveOtherReserve x q k) xvec []
  refine ⟨by rw [hmap, List.length_map], hmap, ?_, ?_⟩
  · intro x hq hx
    unfold solveOtherReserve
    rw [if_pos hq, if_neg hx]
  · intro x xq kq hq hx hk2
    unfold solveOtherReserve
    rw [if_neg hq, hx, hk2]
    dsimp only
    exact ⟨fun hgt => by rw [if_pos hgt], fun hle => by rw [if_neg hle]⟩

/-- C7 (amended): for every `q`, every positive original invariant `k`,
and every `newX` on which the scalar solve succeeds with `solvedY`,
recomputing the invariant as `calculate_k q newX solvedY` returns exactly
the original `k`. -/
theorem C7_roundtrip (q k newX solvedY : ℝ) (hk : 0 < k)
    (h : solveOtherReserve newX q k = some solvedY) :
    calculate_k q newX solvedY = some k := by
  unfold solveOtherReserve at h
  unfold calculate_k
  by_cases hq : |q| ≤ qtol
  · rw [if_pos hq] at h
    rw [if_pos hq]
    by_cases hx : newX = 0
    · rw [if_pos hx] at h; exact absurd h (by simp)
    · rw [if_neg hx] at h
      simp only [Option.some.injEq] at h
      subst h
      congr 1
      rw [mul_comm, div_mul_cancel₀ _ hx]
  · rw [if_neg hq] at h
    rw [if_neg hq]
    have hq0 : q ≠ 0 := q_ne_zero_of_far q hq
    rw [dpow_of_pos _ _ hk] at h
    cases hx : dpow newX q with
    | none => rw [hx] at h; exact absurd h (by simp)
    | some xq =>
      rw [hx] at h
      dsimp only at h
      by_cases hgt : xq > k ^ q
      · rw [if_pos hgt] at h; exact absurd h (by simp)
      · rw [if_neg hgt] at h
        have hkq : 0 < k ^ q := Real.rpow_pos_of_pos hk q
        rcases lt_or_eq_of_le (not_lt.mp hgt) with hlt | heq
        · have hb : 0 < k ^ q - xq := by linarith
          rw [dpow_of_pos _ _ hb] at h
          simp only [Option.some.injEq] at h
          subst h
          have hsy : 0 < (k ^ q - xq) ^ ((1:ℝ)/q) := Real.rpow_pos_of_pos hb _
          rw [dpow_of_pos _ _ hsy, rpow_inv_then _ q hb hq0]
          dsimp only
          rw [show xq + (k ^ q - xq) = k ^ q by ring,
              dpow_of_pos _ _ hkq, rpow_then_inv k q hk hq0]
        · rw [← heq, sub_self] at h
          obtain ⟨hy0, hqinv⟩ := dpow_zero_base_inv _ _ h
          subst hy0
          have hqpos : 0 < q := one_div_pos.mp hqinv
          rw [dpow_zero_base_of_pos q hqpos]
          dsimp only
          rw [add_zero, heq, dpow_of_pos _ _ hkq, rpow_then_inv k q hk hq0]

/-- Witness for C7 at `q = 1`, `k = 10`, `newX = 2` (so `solvedY = 8`). -/
theorem C7_roundtrip_witness : calculate_k 1 2 8 = some 10 :=
  C7_roundtrip 1 10 2 8 (by norm_num)
    (by
      unfold solveOtherReserve
      rw [if_neg abs_one_not_le_qtol, dpow_exp_one, dpow_exp_one]
      dsimp only
      rw [if_neg (by norm_num : ¬ (2:ℝ) > 10), show (1:ℝ)/1 = 1 by norm_num,
          show (10:ℝ) - 2 = 8 by norm_num, dpow_exp_one])

theorem dpow_exp_two (x : ℝ) : dpow x 2 = some (x ^ (2:ℤ)) := by
  unfold dpow
  rw [if_pos (by norm_num : ((⌊(2:ℝ)⌋:ℝ)) = 2),
      if_neg (by rintro ⟨-, h⟩; norm_num at h),
      show ⌊(2:ℝ)⌋ = 2 by norm_num]

/-- C7 counterexample: with `q = 2`, original `k = -3` and `newX = 2` the
scalar solve succeeds (no marker, returning `5^(1/2)`), but recomputing
the invariant from `(q, newX, solvedY)` yields `3`, not the original
`k = -3` — off by `6`, beyond any rounding tolerance. -/
theorem C7_roundtrip_cex :
    solveOtherReserve 2 2 (-3) = some ((5:ℝ) ^ ((1:ℝ)/2)) ∧
    calculate_k 2 2 ((5:ℝ) ^ ((1:ℝ)/2)) = some 3 ∧
    ¬ |(3:ℝ) - (-3)| ≤ 1 := by
  have hq2 : ¬ |(2:ℝ)| ≤ qtol := by
    rw [abs_of_nonneg (by norm_num : (0:ℝ) ≤ 2), qtol]; norm_num
  refine ⟨?_, ?_, by norm_num⟩
  · unfold solveOtherReserve
    rw [if_neg hq2, dpow_exp_two, dpow_exp_two]
    dsimp only
    rw [if_neg (by norm_num : ¬ (2:ℝ)^(2:ℤ) > (-3:ℝ)^(2:ℤ)),
        show (-3:ℝ)^(2:ℤ) - (2:ℝ)^(2:ℤ) = 5 by norm_num]
    exact dpow_of_pos 5 _ (by norm_num)
  · unfold calculate_k
    rw [if_neg hq2, dpow_exp_two, dpow_exp_two,
        show (((5:ℝ) ^ ((1:ℝ)/2)) ^ (2:ℤ)) = 5 by
          rw [zpow_two, ← Real.rpow_add (by norm_num : (0:ℝ) < 5)]; norm_num]
    dsimp only
    rw [show (2:ℝ)^(2:ℤ) + 5 = 9 by norm_num,
        dpow_of_pos 9 _ (by norm_num),
        show (9:ℝ) ^ ((1:ℝ)/2) = 3 by
          rw [← Real.sqrt_eq_rpow, show (9:ℝ) = 3 ^ 2 by norm_num,
              Real.sqrt_sq (by norm_num : (0:ℝ) ≤ 3)]]
